import Mathlib

/-!
Shallow embedding of the Storia rustreader pipeline
(src/native/rustreader/src/lib.rs): PDF-artifact cleaning
(clean_pdf_controls) followed by marker-based splitting, fixed-size
chunk pagination, trimming, and a minimum-length filter (extract_pdf).
Strings are modelled as lists of Unicode scalar values (List Char),
matching the Rust code's explicit Vec<char> chunking.
-/

namespace Storia

/-- Unicode White_Space property, the set recognised by Rust
char::is_whitespace and str::trim, and by the regex escape \s in the
regex crate (Unicode mode is the crate default). -/
def rustIsWhitespace (c : Char) : Bool :=
  c == ' ' || c == '\t' || c == '\n' ||
  c.toNat == 0x0B || c.toNat == 0x0C || c == '\r' ||
  c.toNat == 0x85 || c.toNat == 0xA0 || c.toNat == 0x1680 ||
  (0x2000 ≤ c.toNat && c.toNat ≤ 0x200A) ||
  c.toNat == 0x2028 || c.toNat == 0x2029 || c.toNat == 0x202F ||
  c.toNat == 0x205F || c.toNat == 0x3000

/-- Decimal digit as matched by the regex escape \d in the artifact
patterns. The extracted artifacts only ever contain ASCII digits, which
is the fragment modelled here. -/
def regexDigit (c : Char) : Bool :=
  '0' ≤ c && c ≤ '9'

/-- Literal prefix test on character lists. -/
def startsWith : List Char → List Char → Bool
  | [], _ => true
  | _ :: _, [] => false
  | p :: ps, c :: cs => p == c && startsWith ps cs

/-- Rust str::trim on a character list: strip leading and trailing
Unicode whitespace. -/
def trim (l : List Char) : List Char :=
  ((l.dropWhile rustIsWhitespace).reverse.dropWhile rustIsWhitespace).reverse

/-- Length in bytes of the UTF-8 encoding of a character list; this is
what Rust str::len returns, and is what the source's page filter
compares against 50. -/
def utf8Len (l : List Char) : Nat :=
  (l.map Char.utf8Size).sum

/-- Rust slice::chunks on a Vec of chars: consecutive disjoint chunks of
n elements each, the last chunk holding the remainder. Faithful to the
source for every chunk size n ≥ 1 (the source always uses n = 1500;
slice::chunks panics on n = 0). -/
def chunkList (n : Nat) : List Char → List (List Char)
  | [] => []
  | c :: rest => (c :: rest.take (n - 1)) :: chunkList n (rest.drop (n - 1))
termination_by l => l.length
decreasing_by
  simp only [List.length_drop, List.length_cons]
  omega

/-- The first chapter marker literal, CHAPTER I. -/
def chapterIMark : List Char :=
  ['C', 'H', 'A', 'P', 'T', 'E', 'R', ' ', 'I']

/-- The second chapter marker literal, Down the Rabbit-Hole. -/
def downMark : List Char :=
  ['D', 'o', 'w', 'n', ' ', 't', 'h', 'e', ' ',
   'R', 'a', 'b', 'b', 'i', 't', '-', 'H', 'o', 'l', 'e']

/-- Leftmost match of the regex alternation CHAPTER I|Down the
Rabbit-Hole, as used by Regex::splitn(&content, 2) in the source.
Returns (text before the match, matched literal, text after the match),
or none when neither literal occurs. The two alternatives start with
distinct characters, so leftmost-first matching is plain leftmost
literal search. -/
def findMarker : List Char → Option (List Char × List Char × List Char)
  | [] => none
  | c :: rest =>
    if startsWith chapterIMark (c :: rest) then
      some ([], chapterIMark, (c :: rest).drop chapterIMark.length)
    else if startsWith downMark (c :: rest) then
      some ([], downMark, (c :: rest).drop downMark.length)
    else
      match findMarker rest with
      | some (pre, m, post) => some (c :: pre, m, post)
      | none => none

/-- The pre-chapter/chapter split of extract_pdf: when a marker is
found, pre_chapter is the text before it and the chapter content is the
literal CHAPTER I prepended to the text after it; otherwise pre_chapter
is empty and the chapter content is the whole cleaned text. -/
def splitContent (content : List Char) : List Char × List Char :=
  match findMarker content with
  | some (pre, _, post) => (pre, chapterIMark ++ post)
  | none => ([], content)

/-- One emitted page record: the serialized JSON object carries exactly
a page_number and a text_content field. -/
structure Page where
  page_number : Nat
  text_content : List Char
deriving DecidableEq, Repr

/-- One numbered page per chunk: chunk i (0-based) gets page number
startPage + i and the trimmed chunk text, exactly as the source builds
its JSON page objects inside the two for loops. -/
def mkPages (startPage : Nat) (chunk_size : Nat) (chars : List Char) : List Page :=
  (chunkList chunk_size chars).enum.map
    (fun ic => { page_number := startPage + ic.1, text_content := trim ic.2 })

/-- The pagination stage of extract_pdf on already-cleaned content:
pre-chapter chunks are numbered from 1, chapter chunks from the
hardcoded start page 8, and pages whose trimmed text has UTF-8 byte
length below 50 are filtered out. -/
def paginate (content : List Char) : List Page :=
  let parts := splitContent content
  let prePages := if parts.1.isEmpty then [] else mkPages 1 1500 parts.1
  let chapPages := if parts.2.isEmpty then [] else mkPages 8 1500 parts.2
  (prePages ++ chapPages).filter (fun p => 50 ≤ utf8Len p.text_content)

/-- The untrimmed, unfiltered chunk texts of the pagination stage, in
emission order: the text strings collected from chunk.iter() before
trim and before the length filter, with the same emptiness guards as
the source's two for loops. -/
def unfilteredTexts (content : List Char) (chunk_size : Nat) : List (List Char) :=
  let parts := splitContent content
  (if parts.1.isEmpty then [] else chunkList chunk_size parts.1) ++
  (if parts.2.isEmpty then [] else chunkList chunk_size parts.2)

/-- Fuel-driven engine for Regex::replace_all with a fixed replacement
string: at each position, if the matcher reports a (positive) match
length, the replacement is emitted and the scan resumes after the
matched text; otherwise the current character is kept. The fuel is
seeded with the length of the text, which bounds the number of scan
steps, making the recursion structural; it never runs out on that
seed. -/
def replaceGo (m : List Char → Option Nat) (rep : List Char) : Nat → List Char → List Char
  | _, [] => []
  | 0, l => l
  | fuel + 1, c :: rest =>
    match m (c :: rest) with
    | some (k + 1) => rep ++ replaceGo m rep fuel (rest.drop k)
    | _ => c :: replaceGo m rep fuel rest

/-- Regex::replace_all(text, rep) for the pattern embodied by matcher
m: m l reports the length of the match starting at the head of l, if
any (taking the alternative the pattern's greedy quantifiers prefer,
which for all the source's patterns is the maximal one). None of the
source's patterns can match the empty string. -/
def regexReplaceAll (m : List Char → Option Nat) (rep : List Char) (l : List Char) : List Char :=
  replaceGo m rep l.length l

/-- Matcher for a plain literal pattern. -/
def matchLit (pat : List Char) (l : List Char) : Option Nat :=
  if startsWith pat l then some pat.length else none

def fitPageLit : List Char := "Fit Page Full Scre".data
def navigateLit : List Char := "Navigate Contr".data
def offCloseLit : List Char := "Off Close Book".data
def internetLit : List Char := " Internet".data
def enOLit : List Char := "en O".data
def nOLit : List Char := "n O".data
def digitalLit : List Char := "Digital Interface by".data
def patentLit : List Char := "U.S. Patent Pending".data
def copyrightLit : List Char := "© 2000 All Rights Reserved.".data
def bookVirtualLit : List Char := "BookVirtual™".data
def urlLit : List Char := "www.bookvirtual.com".data
def downTheLit : List Char := "DOWN THE".data
def rabbitLit : List Char := "RABBIT-HOLE. ".data
def bLit : List Char := "B ".data

/-- Pattern "Fit Page Full Scre[e]?": the literal with one optional
trailing e, taken when present since [e]? is greedy. -/
def matchFitPage (l : List Char) : Option Nat :=
  if startsWith fitPageLit l then
    if (l.drop fitPageLit.length).head? = some 'e' then some (fitPageLit.length + 1)
    else some fitPageLit.length
  else none

/-- Pattern "[n/]*Off Close Book": a greedy run of n or / characters
followed by the literal. The literal starts with O, which is outside
the class, so the run the pattern matches is exactly the maximal run. -/
def matchOffClose (l : List Char) : Option Nat :=
  let k := (l.takeWhile (fun c => c == 'n' || c == '/')).length
  if startsWith offCloseLit (l.drop k) then some (k + offCloseLit.length) else none

/-- Pattern "[ol]+ Internet": a nonempty greedy run of o or l
characters followed by the literal, which starts with a space, outside
the class. -/
def matchInternet (l : List Char) : Option Nat :=
  let k := (l.takeWhile (fun c => c == 'o' || c == 'l')).length
  if 1 ≤ k ∧ startsWith internetLit (l.drop k) then some (k + internetLit.length) else none

/-- Pattern "Digital Interface by.*": the literal then the rest of the
line, since the regex dot matches any character except a newline. -/
def matchDigital (l : List Char) : Option Nat :=
  if startsWith digitalLit l then
    some (digitalLit.length +
      ((l.drop digitalLit.length).takeWhile (fun c => !(c == '\n'))).length)
  else none

/-- Pattern matching the U.S. Patent Pending literal followed by the
rest of the line. -/
def matchPatent (l : List Char) : Option Nat :=
  if startsWith patentLit l then
    some (patentLit.length +
      ((l.drop patentLit.length).takeWhile (fun c => !(c == '\n'))).length)
  else none

/-- Pattern matching the DOWN THE literal, then optional whitespace,
then at least one digit; whitespace and digits are disjoint, so the
greedy runs are the maximal runs. -/
def matchDownThe (l : List Char) : Option Nat :=
  if startsWith downTheLit l then
    let w := ((l.drop downTheLit.length).takeWhile rustIsWhitespace).length
    let d := ((l.drop (downTheLit.length + w)).takeWhile regexDigit).length
    if 1 ≤ d then some (downTheLit.length + w + d) else none
  else none

/-- Pattern matching the RABBIT-HOLE literal, a dot, a space, then at
least one digit. -/
def matchRabbitHole (l : List Char) : Option Nat :=
  if startsWith rabbitLit l then
    let d := ((l.drop rabbitLit.length).takeWhile regexDigit).length
    if 1 ≤ d then some (rabbitLit.length + d) else none
  else none

/-- Pattern matching a B, a space, then at least one digit. -/
def matchBNum (l : List Char) : Option Nat :=
  if startsWith bLit l then
    let d := ((l.drop bLit.length).takeWhile regexDigit).length
    if 1 ≤ d then some (bLit.length + d) else none
  else none

/-- The ordered artifact pattern table of clean_pdf_controls, one
matcher per source pattern, in source order. -/
def cleanPatterns : List (List Char → Option Nat) :=
  [matchFitPage, matchLit navigateLit, matchOffClose, matchInternet,
   matchLit enOLit, matchLit nOLit, matchDigital, matchPatent,
   matchLit copyrightLit, matchLit bookVirtualLit, matchLit urlLit,
   matchDownThe, matchRabbitHole, matchBNum]

/-- Matcher for the space-collapsing pattern of one or more spaces:
greedy, so the maximal run. -/
def spacesMatcher : List Char → Option Nat
  | [] => none
  | c :: rest =>
    if c = ' ' then some ((rest.takeWhile (fun d => d == ' ')).length + 1) else none

/-- Matcher for the newline-collapsing pattern of three or more
newlines: greedy, so the maximal run. -/
def newlinesMatcher : List Char → Option Nat
  | c1 :: c2 :: c3 :: rest =>
    if c1 = '\n' ∧ c2 = '\n' ∧ c3 = '\n' then
      some ((rest.takeWhile (fun d => d == '\n')).length + 3)
    else none
  | _ => none

/-- No two adjacent spaces anywhere in the list: the strings on which
the space-collapsing pass is the identity. -/
def noTwoSpaces : List Char → Bool
  | a :: b :: rest => !(a == ' ' && b == ' ') && noTwoSpaces (b :: rest)
  | _ => true

/-- No three adjacent newlines anywhere in the list: the strings on
which the newline-collapsing pass is the identity. -/
def noTripleNl : List Char → Bool
  | a :: b :: c :: rest => !(a == '\n' && b == '\n' && c == '\n') && noTripleNl (b :: c :: rest)
  | _ => true

/-- The space-collapsing replace_all: every run of spaces becomes one
space. -/
def collapseSpaces (l : List Char) : List Char :=
  regexReplaceAll spacesMatcher [' '] l

/-- The newline-collapsing replace_all: every run of three or more
newlines becomes exactly two. -/
def collapseNewlines (l : List Char) : List Char :=
  regexReplaceAll newlinesMatcher ['\n', '\n'] l

/-- The whitespace-normalization tail of clean_pdf_controls: collapse
space runs, then newline runs. -/
def normalizeWhitespace (l : List Char) : List Char :=
  collapseNewlines (collapseSpaces l)

/-- clean_pdf_controls: apply the fourteen artifact patterns in order,
each replaced by a single space, then normalize whitespace. -/
def clean_pdf_controls (text : List Char) : List Char :=
  normalizeWhitespace
    (cleanPatterns.foldl (fun cleaned m => regexReplaceAll m [' '] cleaned) text)

/-- extract_pdf as a function of the outcome of the external extraction
collaborator: on success, clean then paginate the text and forward the
(opaque, Debug-rendered) metadata; on failure, return a single error
value with the collaborator's message attached after the literal prefix
"Extraction failed: ". -/
def extract_pdf (extraction : Except String (List Char × String)) :
    Except String (List Page × String) :=
  match extraction with
  | Except.ok (raw_content, metadata) =>
      Except.ok (paginate (clean_pdf_controls raw_content), metadata)
  | Except.error e => Except.error ("Extraction failed: " ++ e)

/-- UTF-8 encoding of one Unicode scalar value, as its list of byte
values. -/
def charUtf8 (c : Char) : List Nat :=
  let v := c.toNat
  if v < 0x80 then [v]
  else if v < 0x800 then [0xC0 + v / 0x40, 0x80 + v % 0x40]
  else if v < 0x10000 then
    [0xE0 + v / 0x1000, 0x80 + v / 0x40 % 0x40, 0x80 + v % 0x40]
  else
    [0xF0 + v / 0x40000, 0x80 + v / 0x1000 % 0x40, 0x80 + v / 0x40 % 0x40, 0x80 + v % 0x40]

/-- UTF-8 encoding of a character list, the byte content Rust stores
for the corresponding String. -/
def utf8Encode (l : List Char) : List Nat :=
  (l.map charUtf8).flatten

/-- A UTF-8 continuation byte. -/
def isCont (b : Nat) : Bool :=
  0x80 ≤ b && b ≤ 0xBF

/-- Strict UTF-8 decoder: rejects truncated sequences, stray
continuation bytes, overlong encodings, surrogates and values beyond
the last scalar value. Returns the decoded scalar values, or none for
malformed input. -/
def utf8Decode : List Nat → Option (List Char)
  | [] => some []
  | b0 :: rest0 =>
    if b0 < 0x80 then (utf8Decode rest0).map (fun cs => Char.ofNat b0 :: cs)
    else
      match rest0 with
      | [] => none
      | b1 :: rest1 =>
        if 0xC2 ≤ b0 ∧ b0 ≤ 0xDF ∧ isCont b1 then
          (utf8Decode rest1).map
            (fun cs => Char.ofNat ((b0 - 0xC0) * 0x40 + (b1 - 0x80)) :: cs)
        else
          match rest1 with
          | [] => none
          | b2 :: rest2 =>
            if ((b0 = 0xE0 ∧ 0xA0 ≤ b1 ∧ b1 ≤ 0xBF) ∨
                (0xE1 ≤ b0 ∧ b0 ≤ 0xEC ∧ isCont b1) ∨
                (b0 = 0xED ∧ 0x80 ≤ b1 ∧ b1 ≤ 0x9F) ∨
                (0xEE ≤ b0 ∧ b0 ≤ 0xEF ∧ isCont b1)) ∧ isCont b2 then
              (utf8Decode rest2).map
                (fun cs =>
                  Char.ofNat ((b0 - 0xE0) * 0x1000 + (b1 - 0x80) * 0x40 + (b2 - 0x80)) :: cs)
            else
              match rest2 with
              | [] => none
              | b3 :: rest3 =>
                if ((b0 = 0xF0 ∧ 0x90 ≤ b1 ∧ b1 ≤ 0xBF) ∨
                    (0xF1 ≤ b0 ∧ b0 ≤ 0xF3 ∧ isCont b1) ∨
                    (b0 = 0xF4 ∧ 0x80 ≤ b1 ∧ b1 ≤ 0x8F)) ∧ isCont b2 ∧ isCont b3 then
                  (utf8Decode rest3).map
                    (fun cs =>
                      Char.ofNat ((b0 - 0xF0) * 0x40000 + (b1 - 0x80) * 0x1000 +
                        (b2 - 0x80) * 0x40 + (b3 - 0x80)) :: cs)
                else none

/-- The cleaner input of the spec's Example 3. -/
def c5Input : List Char := "BookVirtual™ Hello World www.bookvirtual.com".data

/-- A document whose pre-chapter region is exactly eight full chunks,
followed by the CHAPTER I marker and fifty more characters. -/
def c1Input : List Char :=
  List.replicate 12000 'a' ++ chapterIMark ++ List.replicate 50 'b'

/-! Generic helper lemmas about the list operations used by the
embedding. -/

theorem dropWhile_eq_self_of_head (p : Char → Bool) (l : List Char)
    (h : ∀ c, l.head? = some c → p c = false) : l.dropWhile p = l := by
  cases l with
  | nil => rfl
  | cons a rest => rw [List.dropWhile_cons, h a rfl]; simp

theorem head?_dropWhile_false (p : Char → Bool) (l : List Char) (c : Char)
    (h : (l.dropWhile p).head? = some c) : p c = false := by
  induction l with
  | nil => simp [List.dropWhile] at h
  | cons a rest ih =>
    rw [List.dropWhile_cons] at h
    by_cases hp : p a
    · simp [hp] at h; exact ih h
    · simp [hp] at h; subst h; simpa using hp

theorem drop_takeWhile_length (p : Char → Bool) (l : List Char) :
    l.drop (l.takeWhile p).length = l.dropWhile p := by
  induction l with
  | nil => rfl
  | cons a rest ih =>
    by_cases h : p a
    · simp [List.takeWhile_cons, List.dropWhile_cons, h, ih]
    · simp [List.takeWhile_cons, List.dropWhile_cons, h]

theorem startsWith_append_self (p l : List Char) : startsWith p (p ++ l) = true := by
  induction p with
  | nil => rfl
  | cons a ps ih => simp [startsWith, ih]

theorem startsWith_eq (p : List Char) : ∀ l : List Char,
    startsWith p l = true → p ++ l.drop p.length = l := by
  induction p with
  | nil => intro l _; simp
  | cons a ps ih =>
    intro l h
    cases l with
    | nil => simp [startsWith] at h
    | cons c cs =>
      simp only [startsWith, Bool.and_eq_true, beq_iff_eq] at h
      obtain ⟨h1, h2⟩ := h
      subst h1
      simpa using ih cs h2

theorem startsWith_length_le (p : List Char) : ∀ l : List Char,
    startsWith p l = true → p.length ≤ l.length := by
  induction p with
  | nil => intro l _; simp
  | cons a ps ih =>
    intro l h
    cases l with
    | nil => simp [startsWith] at h
    | cons c cs =>
      simp only [startsWith, Bool.and_eq_true, beq_iff_eq] at h
      simpa using ih cs h.2

/-! chunkList lemmas. -/

theorem chunkList_nil (n : Nat) : chunkList n [] = [] := by
  simp [chunkList]

theorem chunkList_cons (n : Nat) (c : Char) (rest : List Char) :
    chunkList n (c :: rest) =
      (c :: rest.take (n - 1)) :: chunkList n (rest.drop (n - 1)) := by
  simp [chunkList]

theorem chunkList_flatten_aux (n len : Nat) : ∀ l : List Char,
    l.length ≤ len → (chunkList n l).flatten = l := by
  induction len with
  | zero =>
    intro l h
    have : l = [] := List.length_eq_zero.mp (Nat.le_zero.mp h)
    subst this
    simp [chunkList_nil]
  | succ len ih =>
    intro l h
    cases l with
    | nil => simp [chunkList_nil]
    | cons c rest =>
      rw [chunkList_cons]
      simp only [List.flatten_cons]
      have hlen : (rest.drop (n - 1)).length ≤ len := by
        simp only [List.length_drop]
        simp only [List.length_cons] at h
        omega
      rw [ih (rest.drop (n - 1)) hlen]
      simp [List.take_append_drop]

theorem chunkList_flatten (n : Nat) (l : List Char) : (chunkList n l).flatten = l :=
  chunkList_flatten_aux n l.length l le_rfl

theorem chunkList_short (n : Nat) (l : List Char) (hne : l ≠ []) (hlen : l.length ≤ n) :
    chunkList n l = [l] := by
  cases l with
  | nil => exact absurd rfl hne
  | cons c rest =>
    rw [chunkList_cons]
    have h1 : rest.length ≤ n - 1 := by simp only [List.length_cons] at hlen; omega
    rw [List.take_of_length_le h1, List.drop_eq_nil_of_le h1, chunkList_nil]

theorem chunkList_append (n : Nat) (l1 l2 : List Char) (h : l1.length = n) (hn : 0 < n) :
    chunkList n (l1 ++ l2) = l1 :: chunkList n l2 := by
  cases l1 with
  | nil => simp at h; omega
  | cons c rest =>
    rw [List.cons_append, chunkList_cons]
    have hr : rest.length = n - 1 := by simp only [List.length_cons] at h; omega
    rw [← hr, List.take_left, List.drop_left]

theorem chunkList_replicate (n : Nat) (hn : 0 < n) (c : Char) :
    ∀ k, chunkList n (List.replicate (k * n) c) = List.replicate k (List.replicate n c)
  | 0 => by simp [chunkList_nil]
  | k + 1 => by
    have hsplit : (k + 1) * n = n + k * n := by ring
    rw [hsplit, List.replicate_add,
        chunkList_append n _ _ (List.length_replicate _ _) hn,
        chunkList_replicate n hn c k]
    rfl

/-! trim and utf8Len lemmas. -/

theorem trim_eq_self (l : List Char)
    (h1 : ∀ c, l.head? = some c → rustIsWhitespace c = false)
    (h2 : ∀ c, l.getLast? = some c → rustIsWhitespace c = false) : trim l = l := by
  unfold trim
  rw [dropWhile_eq_self_of_head _ _ h1]
  rw [dropWhile_eq_self_of_head _ _ (by
    intro c hc
    rw [List.head?_reverse] at hc
    exact h2 c hc)]
  exact List.reverse_reverse l

theorem trim_replicate (m : Nat) (c : Char) (h : rustIsWhitespace c = false) :
    trim (List.replicate m c) = List.replicate m c := by
  apply trim_eq_self
  · intro d hd
    cases m with
    | zero => simp at hd
    | succ m =>
      simp [List.replicate_succ] at hd
      rwa [hd] at h
  · intro d hd
    have hmem := List.mem_of_mem_getLast? hd
    rw [List.eq_of_mem_replicate hmem]
    exact h

theorem utf8Len_replicate (m : Nat) (c : Char) :
    utf8Len (List.replicate m c) = m * c.utf8Size := by
  unfold utf8Len
  rw [List.map_replicate, List.sum_replicate, smul_eq_mul]

theorem utf8Len_append (l1 l2 : List Char) :
    utf8Len (l1 ++ l2) = utf8Len l1 + utf8Len l2 := by
  unfold utf8Len
  rw [List.map_append, List.sum_append]

/-! findMarker and splitContent lemmas. -/

theorem startsWith_chapterI_false (c : Char) (cs : List Char) (h : c ≠ 'C') :
    startsWith chapterIMark (c :: cs) = false := by
  have hb : ('C' == c) = false := by
    simp only [beq_eq_false_iff_ne, ne_eq]
    exact fun hh => h hh.symm
  simp [chapterIMark, startsWith, hb]

theorem startsWith_down_false (c : Char) (cs : List Char) (h : c ≠ 'D') :
    startsWith downMark (c :: cs) = false := by
  have hb : ('D' == c) = false := by
    simp only [beq_eq_false_iff_ne, ne_eq]
    exact fun hh => h hh.symm
  simp [downMark, startsWith, hb]

theorem findMarker_cons_skip (c : Char) (rest : List Char)
    (h1 : startsWith chapterIMark (c :: rest) = false)
    (h2 : startsWith downMark (c :: rest) = false) :
    findMarker (c :: rest) =
      (findMarker rest).map (fun x => (c :: x.1, x.2.1, x.2.2)) := by
  rw [findMarker, h1, h2]
  simp only [Bool.false_eq_true, if_false]
  cases hr : findMarker rest with
  | none => rfl
  | some x =>
    obtain ⟨pre, m, post⟩ := x
    rfl

theorem findMarker_eq_none (l : List Char) (h : ∀ c ∈ l, c ≠ 'C' ∧ c ≠ 'D') :
    findMarker l = none := by
  induction l with
  | nil => rfl
  | cons c rest ih =>
    have hc := h c (List.mem_cons_self c rest)
    rw [findMarker_cons_skip c rest (startsWith_chapterI_false c rest hc.1)
          (startsWith_down_false c rest hc.2)]
    rw [ih (fun d hd => h d (List.mem_cons_of_mem c hd))]
    rfl

theorem findMarker_of_startsWith_chapterI (c : Char) (rest : List Char)
    (h : startsWith chapterIMark (c :: rest) = true) :
    findMarker (c :: rest) =
      some ([], chapterIMark, (c :: rest).drop chapterIMark.length) := by
  rw [findMarker, h]
  simp

theorem findMarker_chapterI_append (l : List Char) :
    findMarker (chapterIMark ++ l) = some ([], chapterIMark, l) := by
  have h0 : chapterIMark ++ l = 'C' :: (chapterIMark.tail ++ l) := rfl
  have hsw : startsWith chapterIMark ('C' :: (chapterIMark.tail ++ l)) = true := by
    rw [← h0]; exact startsWith_append_self _ _
  rw [h0, findMarker_of_startsWith_chapterI _ _ hsw, ← h0, List.drop_left]

theorem findMarker_replicate_append (m : Nat) (a : Char) (hC : a ≠ 'C') (hD : a ≠ 'D')
    (l : List Char) :
    findMarker (List.replicate m a ++ l) =
      (findMarker l).map (fun x => (List.replicate m a ++ x.1, x.2.1, x.2.2)) := by
  induction m with
  | zero =>
    simp only [List.replicate, List.nil_append]
    cases hr : findMarker l with
    | none => rfl
    | some x =>
      obtain ⟨pre, mk, post⟩ := x
      rfl
  | succ m ih =>
    rw [List.replicate_succ, List.cons_append]
    rw [findMarker_cons_skip _ _ (startsWith_chapterI_false _ _ hC)
          (startsWith_down_false _ _ hD)]
    rw [ih]
    cases hr : findMarker l with
    | none => rfl
    | some x =>
      obtain ⟨pre, mk, post⟩ := x
      simp [List.replicate_succ]

theorem findMarker_sound (l : List Char) : ∀ pre m post : List Char,
    findMarker l = some (pre, m, post) →
    l = pre ++ m ++ post ∧ (m = chapterIMark ∨ m = downMark) := by
  induction l with
  | nil => intro pre m post h; simp [findMarker] at h
  | cons c rest ih =>
    intro pre m post h
    rw [findMarker] at h
    by_cases h1 : startsWith chapterIMark (c :: rest) = true
    · rw [h1] at h
      simp only [if_true] at h
      have hinj := Option.some.inj h
      have hpre : pre = [] := (congrArg Prod.fst hinj).symm
      have hm : m = chapterIMark := (congrArg (Prod.fst ∘ Prod.snd) hinj).symm
      have hpost : post = (c :: rest).drop chapterIMark.length :=
        (congrArg (Prod.snd ∘ Prod.snd) hinj).symm
      subst hpre hm hpost
      constructor
      · rw [List.nil_append]
        exact (startsWith_eq chapterIMark _ h1).symm
      · exact Or.inl rfl
    · rw [Bool.not_eq_true] at h1
      rw [h1] at h
      simp only [Bool.false_eq_true, if_false] at h
      by_cases h2 : startsWith downMark (c :: rest) = true
      · rw [h2] at h
        simp only [if_true] at h
        have hinj := Option.some.inj h
        have hpre : pre = [] := (congrArg Prod.fst hinj).symm
        have hm : m = downMark := (congrArg (Prod.fst ∘ Prod.snd) hinj).symm
        have hpost : post = (c :: rest).drop downMark.length :=
          (congrArg (Prod.snd ∘ Prod.snd) hinj).symm
        subst hpre hm hpost
        constructor
        · rw [List.nil_append]
          exact (startsWith_eq downMark _ h2).symm
        · exact Or.inr rfl
      · rw [Bool.not_eq_true] at h2
        rw [h2] at h
        simp only [Bool.false_eq_true, if_false] at h
        cases hr : findMarker rest with
        | none => rw [hr] at h; simp at h
        | some x =>
          obtain ⟨pre0, m0, post0⟩ := x
          rw [hr] at h
          simp only at h
          have hinj := Option.some.inj h
          have hpre : pre = c :: pre0 := (congrArg Prod.fst hinj).symm
          have hm : m = m0 := (congrArg (Prod.fst ∘ Prod.snd) hinj).symm
          have hpost : post = post0 := (congrArg (Prod.snd ∘ Prod.snd) hinj).symm
          subst hpre hm hpost
          obtain ⟨heq, hor⟩ := ih pre0 m post hr
          constructor
          · rw [List.cons_append, List.cons_append, ← heq]
          · exact hor

/-! paginate computation lemmas. -/

theorem paginate_small (l : List Char) (hne : l ≠ []) (hlen : l.length ≤ 1500)
    (hmark : findMarker l = none) (hws : ∀ c ∈ l, rustIsWhitespace c = false) :
    paginate l =
      if 50 ≤ utf8Len l then [{ page_number := 8, text_content := l }] else [] := by
  have hsplit : splitContent l = ([], l) := by
    unfold splitContent
    rw [hmark]
  have htrim : trim l = l :=
    trim_eq_self l
      (fun c hc => hws c (List.mem_of_mem_head? hc))
      (fun c hc => hws c (List.mem_of_mem_getLast? hc))
  have hempty : l.isEmpty = false := by
    cases l with
    | nil => exact absurd rfl hne
    | cons a as => rfl
  simp only [paginate, hsplit, List.isEmpty_nil, if_true, hempty, Bool.false_eq_true,
    if_false, List.nil_append]
  rw [mkPages, chunkList_short 1500 l hne hlen]
  simp only [List.enum, List.enumFrom, List.map_cons, List.map_nil, Nat.add_zero, htrim]
  by_cases hf : 50 ≤ utf8Len l
  · simp [List.filter_cons, hf]
  · simp [List.filter_cons, hf]

theorem paginate_eq (content : List Char) :
    paginate content =
      ((if (splitContent content).1.isEmpty then []
        else mkPages 1 1500 (splitContent content).1) ++
       (if (splitContent content).2.isEmpty then []
        else mkPages 8 1500 (splitContent content).2)).filter
        (fun p => 50 ≤ utf8Len p.text_content) := rfl

theorem splitContent_of_none (content : List Char) (h : findMarker content = none) :
    splitContent content = ([], content) := by
  unfold splitContent
  rw [h]

theorem splitContent_of_some (content pre m post : List Char)
    (h : findMarker content = some (pre, m, post)) :
    splitContent content = (pre, chapterIMark ++ post) := by
  unfold splitContent
  rw [h]

theorem paginate_replicate (m : Nat) (c : Char) (hm : 0 < m) (hm2 : m ≤ 1500)
    (hC : c ≠ 'C') (hD : c ≠ 'D') (hws : rustIsWhitespace c = false) :
    paginate (List.replicate m c) =
      if 50 ≤ m * c.utf8Size then
        [{ page_number := 8, text_content := List.replicate m c }]
      else [] := by
  rw [paginate_small (List.replicate m c)
        (by rw [Ne, List.replicate_eq_nil_iff]; omega)
        (by rw [List.length_replicate]; exact hm2)
        (findMarker_eq_none _ (fun d hd => by
          rw [List.eq_of_mem_replicate hd]; exact ⟨hC, hD⟩))
        (fun d hd => by rw [List.eq_of_mem_replicate hd]; exact hws)]
  rw [utf8Len_replicate]

theorem paginate_a1500 :
    paginate (List.replicate 1500 'a') =
      [{ page_number := 8, text_content := List.replicate 1500 'a' }] := by
  rw [paginate_replicate 1500 'a' (by omega) (by omega) (by decide) (by decide) (by decide)]
  rw [if_pos (by decide)]

theorem paginate_tm25 :
    paginate (List.replicate 25 '™') =
      [{ page_number := 8, text_content := List.replicate 25 '™' }] := by
  rw [paginate_replicate 25 '™' (by omega) (by omega) (by decide) (by decide) (by decide)]
  rw [if_pos (by decide)]

theorem paginate_a60 :
    paginate (List.replicate 60 'a') =
      [{ page_number := 8, text_content := List.replicate 60 'a' }] := by
  rw [paginate_replicate 60 'a' (by omega) (by omega) (by decide) (by decide) (by decide)]
  rw [if_pos (by decide)]

/-! unfilteredTexts lemmas. -/

theorem guard_chunk_flatten (n : Nat) (l : List Char) :
    (if l.isEmpty then [] else chunkList n l).flatten = l := by
  by_cases h : l.isEmpty
  · rw [if_pos h]
    rw [List.isEmpty_iff] at h
    simp [h]
  · rw [if_neg h]
    exact chunkList_flatten n l

theorem unfilteredTexts_flatten (content : List Char) (n : Nat) :
    (unfilteredTexts content n).flatten =
      (splitContent content).1 ++ (splitContent content).2 := by
  show ((if (splitContent content).1.isEmpty then []
         else chunkList n (splitContent content).1) ++
        (if (splitContent content).2.isEmpty then []
         else chunkList n (splitContent content).2)).flatten = _
  rw [List.flatten_append, guard_chunk_flatten, guard_chunk_flatten]

/-! Page-number and membership lemmas for mkPages. -/

theorem mkPages_numbers (s n : Nat) (l : List Char) :
    (mkPages s n l).map Page.page_number =
      (List.range (chunkList n l).length).map (fun i => s + i) := by
  unfold mkPages
  rw [List.map_map]
  rw [show (Page.page_number ∘ fun ic : Nat × List Char =>
        ({ page_number := s + ic.1, text_content := trim ic.2 } : Page)) =
      (fun i => s + i) ∘ Prod.fst from rfl]
  rw [← List.map_map, List.enum_map_fst]

theorem mkPages_text (s n : Nat) (l : List Char) (p : Page) (hp : p ∈ mkPages s n l) :
    ∃ chunk ∈ chunkList n l, p.text_content = trim chunk := by
  unfold mkPages at hp
  simp only [List.mem_map] at hp
  obtain ⟨ic, hic, hpic⟩ := hp
  refine ⟨ic.2, List.snd_mem_of_mem_enum hic, ?_⟩
  rw [← hpic]

theorem pairwise_lt_map_add (s k : Nat) :
    ((List.range k).map (fun i => s + i)).Pairwise (· < ·) := by
  rw [List.pairwise_map]
  exact (List.pairwise_lt_range k).imp (fun h => by omega)

/-! Computation of the pagination of c1Input. -/

theorem getLast?_append_replicate (l : List Char) (c : Char) (m : Nat) (hm : 0 < m) :
    (l ++ List.replicate m c).getLast? = some c := by
  rw [← List.head?_reverse, List.reverse_append, List.reverse_replicate]
  cases m with
  | zero => omega
  | succ k => simp [List.replicate_succ]

theorem findMarker_c1 :
    findMarker c1Input =
      some (List.replicate 12000 'a', chapterIMark, List.replicate 50 'b') := by
  unfold c1Input
  rw [List.append_assoc]
  rw [findMarker_replicate_append 12000 'a' (by decide) (by decide)]
  rw [findMarker_chapterI_append]
  rw [Option.map_some']
  simp only [List.append_nil]

theorem splitContent_c1 :
    splitContent c1Input =
      (List.replicate 12000 'a', chapterIMark ++ List.replicate 50 'b') :=
  splitContent_of_some _ _ _ _ findMarker_c1

theorem chunk_c1_pre :
    chunkList 1500 (List.replicate 12000 'a') =
      List.replicate 8 (List.replicate 1500 'a') := by
  rw [show (12000 : Nat) = 8 * 1500 from by norm_num,
      chunkList_replicate 1500 (by norm_num) 'a' 8]

theorem chapContent_c1_length : (chapterIMark ++ List.replicate 50 'b').length = 59 := by
  rw [List.length_append, List.length_replicate]
  rfl

theorem chunk_c1_chap :
    chunkList 1500 (chapterIMark ++ List.replicate 50 'b') =
      [chapterIMark ++ List.replicate 50 'b'] := by
  apply chunkList_short
  · simp [chapterIMark]
  · rw [chapContent_c1_length]; omega

theorem trim_c1_chap :
    trim (chapterIMark ++ List.replicate 50 'b') = chapterIMark ++ List.replicate 50 'b' := by
  apply trim_eq_self
  · intro c hc
    simp only [chapterIMark, List.cons_append, List.head?_cons, Option.some.injEq] at hc
    rw [← hc]
    decide
  · intro c hc
    rw [getLast?_append_replicate _ _ _ (by omega)] at hc
    rw [← Option.some.inj hc]
    decide

theorem utf8Len_c1_chap : utf8Len (chapterIMark ++ List.replicate 50 'b') = 59 := by
  rw [utf8Len_append, utf8Len_replicate]
  decide

theorem paginate_c1_numbers :
    (paginate c1Input).map Page.page_number =
      (List.range 8).map (fun i => 1 + i) ++ (List.range 1).map (fun i => 8 + i) := by
  rw [paginate_eq, splitContent_c1]
  rw [if_neg (by simp [List.isEmpty_iff, List.replicate_eq_nil_iff]),
      if_neg (by simp [List.isEmpty_iff, chapterIMark])]
  rw [List.filter_eq_self.mpr ?hall]
  case hall =>
    intro p hp
    rcases List.mem_append.mp hp with hmem | hmem
    · obtain ⟨chunk, hchunk, htext⟩ := mkPages_text _ _ _ _ hmem
      rw [chunk_c1_pre] at hchunk
      rw [List.eq_of_mem_replicate hchunk] at htext
      rw [trim_replicate 1500 'a' (by decide)] at htext
      simp only [decide_eq_true_eq, htext, utf8Len_replicate]
      decide
    · obtain ⟨chunk, hchunk, htext⟩ := mkPages_text _ _ _ _ hmem
      rw [chunk_c1_chap, List.mem_singleton] at hchunk
      rw [hchunk, trim_c1_chap] at htext
      simp only [decide_eq_true_eq, htext, utf8Len_c1_chap]
      omega
  rw [List.map_append, mkPages_numbers, mkPages_numbers, chunk_c1_pre, chunk_c1_chap]
  rw [List.length_replicate, List.length_singleton]

/-! Equation lemmas for the replace_all engine. -/

theorem replaceGo_nil (m : List Char → Option Nat) (rep : List Char) (f : Nat) :
    replaceGo m rep f [] = [] := by
  cases f <;> rfl

theorem replaceGo_succ (m : List Char → Option Nat) (rep : List Char) (fuel : Nat)
    (c : Char) (rest : List Char) :
    replaceGo m rep (fuel + 1) (c :: rest) =
      match m (c :: rest) with
      | some (k + 1) => rep ++ replaceGo m rep fuel (rest.drop k)
      | _ => c :: replaceGo m rep fuel rest := rfl

theorem replaceGo_fuel_aux (m : List Char → Option Nat) (rep : List Char) :
    ∀ (len : Nat) (l : List Char), l.length ≤ len →
      ∀ f1 f2, l.length ≤ f1 → l.length ≤ f2 →
        replaceGo m rep f1 l = replaceGo m rep f2 l := by
  intro len
  induction len with
  | zero =>
    intro l hl f1 f2 _ _
    have : l = [] := List.length_eq_zero.mp (Nat.le_zero.mp hl)
    subst this
    rw [replaceGo_nil, replaceGo_nil]
  | succ len ih =>
    intro l hl f1 f2 h1 h2
    cases l with
    | nil => rw [replaceGo_nil, replaceGo_nil]
    | cons c rest =>
      simp only [List.length_cons] at hl h1 h2
      cases f1 with
      | zero => omega
      | succ f1 =>
        cases f2 with
        | zero => omega
        | succ f2 =>
          rw [replaceGo_succ, replaceGo_succ]
          cases hm : m (c :: rest) with
          | none =>
            simp only
            rw [ih rest (by omega) f1 f2 (by omega) (by omega)]
          | some k =>
            cases k with
            | zero =>
              simp only
              rw [ih rest (by omega) f1 f2 (by omega) (by omega)]
            | succ k =>
              simp only
              have hd : (rest.drop k).length ≤ rest.length := by
                rw [List.length_drop]; omega
              rw [ih (rest.drop k) (by omega) f1 f2 (by omega) (by omega)]

theorem replaceGo_fuel (m : List Char → Option Nat) (rep : List Char) (l : List Char)
    (f1 f2 : Nat) (h1 : l.length ≤ f1) (h2 : l.length ≤ f2) :
    replaceGo m rep f1 l = replaceGo m rep f2 l :=
  replaceGo_fuel_aux m rep l.length l le_rfl f1 f2 h1 h2

theorem regexReplaceAll_nil (m : List Char → Option Nat) (rep : List Char) :
    regexReplaceAll m rep [] = [] := rfl

theorem regexReplaceAll_cons_pos (m : List Char → Option Nat) (rep : List Char)
    (c : Char) (rest : List Char) (k : Nat) (h : m (c :: rest) = some (k + 1)) :
    regexReplaceAll m rep (c :: rest) = rep ++ regexReplaceAll m rep (rest.drop k) := by
  unfold regexReplaceAll
  rw [show (c :: rest).length = rest.length + 1 from rfl, replaceGo_succ, h]
  simp only
  congr 1
  exact replaceGo_fuel m rep (rest.drop k) rest.length (rest.drop k).length
    (by rw [List.length_drop]; omega) le_rfl

theorem regexReplaceAll_cons_none (m : List Char → Option Nat) (rep : List Char)
    (c : Char) (rest : List Char) (h : m (c :: rest) = none) :
    regexReplaceAll m rep (c :: rest) = c :: regexReplaceAll m rep rest := by
  unfold regexReplaceAll
  rw [show (c :: rest).length = rest.length + 1 from rfl, replaceGo_succ, h]

/-! Equation lemmas for the two collapse passes. -/

theorem collapseSpaces_nil : collapseSpaces [] = [] := rfl

theorem collapseSpaces_space (rest : List Char) :
    collapseSpaces (' ' :: rest) =
      ' ' :: collapseSpaces (rest.dropWhile (fun d => d == ' ')) := by
  unfold collapseSpaces
  rw [regexReplaceAll_cons_pos spacesMatcher [' '] ' ' rest
        ((rest.takeWhile (fun d => d == ' ')).length)
        (by simp [spacesMatcher])]
  rw [drop_takeWhile_length]
  rfl

theorem collapseSpaces_other (c : Char) (rest : List Char) (h : c ≠ ' ') :
    collapseSpaces (c :: rest) = c :: collapseSpaces rest := by
  unfold collapseSpaces
  exact regexReplaceAll_cons_none _ _ _ _ (by simp [spacesMatcher, h])

theorem collapseNewlines_nil : collapseNewlines [] = [] := rfl

theorem newlinesMatcher_pos (rest : List Char) :
    newlinesMatcher ('\n' :: '\n' :: '\n' :: rest) =
      some ((rest.takeWhile (fun d => d == '\n')).length + 3) := by
  simp [newlinesMatcher]

theorem newlinesMatcher_short_none (l : List Char) (h : l.length ≤ 2) :
    newlinesMatcher l = none := by
  match l, h with
  | [], _ => rfl
  | [c1], _ => rfl
  | [c1, c2], _ => rfl

theorem newlinesMatcher_cons3_none (c1 c2 c3 : Char) (rest : List Char)
    (h : ¬(c1 = '\n' ∧ c2 = '\n' ∧ c3 = '\n')) :
    newlinesMatcher (c1 :: c2 :: c3 :: rest) = none := by
  show (if c1 = '\n' ∧ c2 = '\n' ∧ c3 = '\n' then
          some ((rest.takeWhile (fun d => d == '\n')).length + 3)
        else none) = none
  rw [if_neg h]

theorem collapseNewlines_nl3 (rest : List Char) :
    collapseNewlines ('\n' :: '\n' :: '\n' :: rest) =
      '\n' :: '\n' :: collapseNewlines (rest.dropWhile (fun d => d == '\n')) := by
  unfold collapseNewlines
  rw [regexReplaceAll_cons_pos newlinesMatcher ['\n', '\n'] '\n' ('\n' :: '\n' :: rest)
        ((rest.takeWhile (fun d => d == '\n')).length + 2)
        (by rw [newlinesMatcher_pos])]
  rw [show ('\n' :: '\n' :: rest).drop ((rest.takeWhile (fun d => d == '\n')).length + 2) =
        rest.drop (rest.takeWhile (fun d => d == '\n')).length from rfl]
  rw [drop_takeWhile_length]
  rfl

theorem collapseNewlines_other (c : Char) (rest : List Char)
    (h : newlinesMatcher (c :: rest) = none) :
    collapseNewlines (c :: rest) = c :: collapseNewlines rest :=
  regexReplaceAll_cons_none _ _ _ _ h

theorem collapseNewlines_single (c : Char) : collapseNewlines [c] = [c] := by
  rw [collapseNewlines_other c [] (newlinesMatcher_short_none _ (by simp)),
      collapseNewlines_nil]

theorem collapseNewlines_pair (c1 c2 : Char) : collapseNewlines [c1, c2] = [c1, c2] := by
  rw [collapseNewlines_other c1 [c2] (newlinesMatcher_short_none _ (by simp)),
      collapseNewlines_single]

/-! Window predicates: basic lemmas. -/

theorem nts_cons2_eq (a b : Char) (rest : List Char) :
    noTwoSpaces (a :: b :: rest) =
      (!(a == ' ' && b == ' ') && noTwoSpaces (b :: rest)) := rfl

theorem ntn_cons3_eq (a b c : Char) (rest : List Char) :
    noTripleNl (a :: b :: c :: rest) =
      (!(a == '\n' && b == '\n' && c == '\n') && noTripleNl (b :: c :: rest)) := rfl

theorem nts_tail (a : Char) (l : List Char) (h : noTwoSpaces (a :: l) = true) :
    noTwoSpaces l = true := by
  cases l with
  | nil => rfl
  | cons b xs =>
    rw [nts_cons2_eq, Bool.and_eq_true] at h
    exact h.2

theorem ntn_tail (a : Char) (l : List Char) (h : noTripleNl (a :: l) = true) :
    noTripleNl l = true := by
  cases l with
  | nil => rfl
  | cons b xs =>
    cases xs with
    | nil => rfl
    | cons c ys =>
      rw [ntn_cons3_eq, Bool.and_eq_true] at h
      exact h.2

theorem nts_cons_of (X : List Char) (a : Char) (hX : noTwoSpaces X = true)
    (h : ¬(a = ' ' ∧ X.head? = some ' ')) : noTwoSpaces (a :: X) = true := by
  cases X with
  | nil => rfl
  | cons b xs =>
    rw [nts_cons2_eq, hX, Bool.and_true]
    have hfw : (a == ' ' && b == ' ') = false := by
      by_cases ha : a = ' '
      · by_cases hb : b = ' '
        · exact absurd ⟨ha, by rw [List.head?_cons, hb]⟩ h
        · simp [hb]
      · simp [ha]
    rw [hfw]
    rfl

theorem ntn_cons_of (X : List Char) (a : Char) (hX : noTripleNl X = true)
    (h : ¬(a = '\n' ∧ X.head? = some '\n' ∧ (X.drop 1).head? = some '\n')) :
    noTripleNl (a :: X) = true := by
  cases X with
  | nil => rfl
  | cons b xs =>
    cases xs with
    | nil => rfl
    | cons c ys =>
      rw [ntn_cons3_eq, hX, Bool.and_true]
      have hfw : (a == '\n' && b == '\n' && c == '\n') = false := by
        by_cases ha : a = '\n'
        · by_cases hb : b = '\n'
          · by_cases hc : c = '\n'
            · exact absurd ⟨ha, by rw [List.head?_cons, hb],
                by rw [List.drop_succ_cons, List.drop_zero, List.head?_cons, hc]⟩ h
            · simp [hc]
          · simp [hb]
        · simp [ha]
      rw [hfw]
      rfl

theorem ntn_two_nl_cons (X : List Char) (hX : noTripleNl X = true)
    (hh : X.head? ≠ some '\n') : noTripleNl ('\n' :: '\n' :: X) = true := by
  cases X with
  | nil => rfl
  | cons x xs =>
    have hx : x ≠ '\n' := fun hc => hh (by rw [List.head?_cons, hc])
    rw [ntn_cons3_eq]
    have h1 : ('\n' == '\n' && '\n' == '\n' && x == '\n') = false := by simp [hx]
    rw [h1]
    simp only [Bool.not_false, Bool.true_and]
    apply ntn_cons_of _ _ hX
    intro hcontra
    exact hx (Option.some.inj (List.head?_cons ▸ hcontra.2.1))

theorem nts_dropWhile (p : Char → Bool) (l : List Char) (h : noTwoSpaces l = true) :
    noTwoSpaces (l.dropWhile p) = true := by
  induction l with
  | nil => rfl
  | cons a rest ih =>
    rw [List.dropWhile_cons]
    by_cases hp : p a
    · rw [if_pos hp]
      exact ih (nts_tail _ _ h)
    · rw [if_neg hp]
      exact h

/-! Head preservation for the collapse passes. -/

theorem CS_head? (l : List Char) : (collapseSpaces l).head? = l.head? := by
  cases l with
  | nil => rfl
  | cons c rest =>
    by_cases hc : c = ' '
    · subst hc
      rw [collapseSpaces_space]
      rfl
    · rw [collapseSpaces_other c rest hc]
      rfl

theorem CN_head? (l : List Char) : (collapseNewlines l).head? = l.head? := by
  cases l with
  | nil => rfl
  | cons c1 l1 =>
    cases l1 with
    | nil => rw [collapseNewlines_single]
    | cons c2 l2 =>
      cases l2 with
      | nil => rw [collapseNewlines_pair]
      | cons c3 rest =>
        by_cases hall : c1 = '\n' ∧ c2 = '\n' ∧ c3 = '\n'
        · obtain ⟨h1, h2, h3⟩ := hall
          subst h1; subst h2; subst h3
          rw [collapseNewlines_nl3]
          rfl
        · rw [collapseNewlines_other _ _ (newlinesMatcher_cons3_none _ _ _ _ hall)]
          rfl

theorem CN_drop1_head? (l : List Char) :
    ((collapseNewlines l).drop 1).head? = (l.drop 1).head? := by
  cases l with
  | nil => rfl
  | cons c1 l1 =>
    cases l1 with
    | nil => rw [collapseNewlines_single]
    | cons c2 l2 =>
      cases l2 with
      | nil => rw [collapseNewlines_pair]
      | cons c3 rest =>
        by_cases hall : c1 = '\n' ∧ c2 = '\n' ∧ c3 = '\n'
        · obtain ⟨h1, h2, h3⟩ := hall
          subst h1; subst h2; subst h3
          rw [collapseNewlines_nl3]
          rfl
        · rw [collapseNewlines_other _ _ (newlinesMatcher_cons3_none _ _ _ _ hall)]
          simp only [List.drop_succ_cons, List.drop_zero]
          exact CN_head? _

/-! The five structural lemmas behind idempotence of whitespace
normalization. -/

theorem nts_CS_aux : ∀ (len : Nat) (l : List Char), l.length ≤ len →
    noTwoSpaces (collapseSpaces l) = true := by
  intro len
  induction len with
  | zero =>
    intro l hl
    have : l = [] := List.length_eq_zero.mp (Nat.le_zero.mp hl)
    subst this
    rfl
  | succ len ih =>
    intro l hl
    cases l with
    | nil => rfl
    | cons c rest =>
      simp only [List.length_cons] at hl
      by_cases hc : c = ' '
      · subst hc
        rw [collapseSpaces_space]
        have hlen : (rest.dropWhile (fun d => d == ' ')).length ≤ len := by
          have hle : (rest.dropWhile (fun d => d == ' ')).length ≤ rest.length :=
            List.Sublist.length_le (List.IsSuffix.sublist (List.dropWhile_suffix _))
          omega
        apply nts_cons_of _ _ (ih _ hlen)
        intro hcontra
        rw [CS_head?] at hcontra
        have := head?_dropWhile_false _ _ _ hcontra.2
        simp at this
      · rw [collapseSpaces_other c rest hc]
        apply nts_cons_of _ _ (ih rest (by omega))
        intro hcontra
        exact hc hcontra.1

theorem nts_CS (l : List Char) : noTwoSpaces (collapseSpaces l) = true :=
  nts_CS_aux l.length l le_rfl

theorem CS_id_aux : ∀ (len : Nat) (l : List Char), l.length ≤ len →
    noTwoSpaces l = true → collapseSpaces l = l := by
  intro len
  induction len with
  | zero =>
    intro l hl _
    have : l = [] := List.length_eq_zero.mp (Nat.le_zero.mp hl)
    subst this
    rfl
  | succ len ih =>
    intro l hl h
    cases l with
    | nil => rfl
    | cons c rest =>
      simp only [List.length_cons] at hl
      by_cases hc : c = ' '
      · subst hc
        rw [collapseSpaces_space]
        have hdw : rest.dropWhile (fun d => d == ' ') = rest := by
          cases rest with
          | nil => rfl
          | cons b xs =>
            have hb : b ≠ ' ' := by
              intro hb
              subst hb
              rw [nts_cons2_eq] at h
              simp at h
            rw [List.dropWhile_cons, if_neg (by simp [hb])]
        rw [hdw]
        congr 1
        exact ih rest (by omega) (nts_tail _ _ h)
      · rw [collapseSpaces_other c rest hc]
        congr 1
        exact ih rest (by omega) (nts_tail _ _ h)

theorem CS_id (l : List Char) (h : noTwoSpaces l = true) : collapseSpaces l = l :=
  CS_id_aux l.length l le_rfl h

theorem ntn_CN_aux : ∀ (len : Nat) (l : List Char), l.length ≤ len →
    noTripleNl (collapseNewlines l) = true := by
  intro len
  induction len with
  | zero =>
    intro l hl
    have : l = [] := List.length_eq_zero.mp (Nat.le_zero.mp hl)
    subst this
    rfl
  | succ len ih =>
    intro l hl
    cases l with
    | nil => rfl
    | cons c1 l1 =>
      cases l1 with
      | nil => rw [collapseNewlines_single]; rfl
      | cons c2 l2 =>
        cases l2 with
        | nil => rw [collapseNewlines_pair]; rfl
        | cons c3 rest =>
          simp only [List.length_cons] at hl
          by_cases hall : c1 = '\n' ∧ c2 = '\n' ∧ c3 = '\n'
          · obtain ⟨h1, h2, h3⟩ := hall
            subst h1; subst h2; subst h3
            rw [collapseNewlines_nl3]
            have hlen : (rest.dropWhile (fun d => d == '\n')).length ≤ len := by
              have hle : (rest.dropWhile (fun d => d == '\n')).length ≤ rest.length :=
                List.Sublist.length_le (List.IsSuffix.sublist (List.dropWhile_suffix _))
              omega
            apply ntn_two_nl_cons _ (ih _ hlen)
            rw [CN_head?]
            intro hcontra
            have := head?_dropWhile_false _ _ _ hcontra
            simp at this
          · rw [collapseNewlines_other _ _ (newlinesMatcher_cons3_none _ _ _ _ hall)]
            apply ntn_cons_of _ _ (ih (c2 :: c3 :: rest)
              (by simp only [List.length_cons]; omega))
            intro hcontra
            obtain ⟨hx1, hx2, hx3⟩ := hcontra
            rw [CN_head?, List.head?_cons] at hx2
            rw [CN_drop1_head?, List.drop_succ_cons, List.drop_zero, List.head?_cons] at hx3
            exact hall ⟨hx1, Option.some.inj hx2, Option.some.inj hx3⟩

theorem ntn_CN (l : List Char) : noTripleNl (collapseNewlines l) = true :=
  ntn_CN_aux l.length l le_rfl

theorem CN_id_aux : ∀ (len : Nat) (l : List Char), l.length ≤ len →
    noTripleNl l = true → collapseNewlines l = l := by
  intro len
  induction len with
  | zero =>
    intro l hl _
    have : l = [] := List.length_eq_zero.mp (Nat.le_zero.mp hl)
    subst this
    rfl
  | succ len ih =>
    intro l hl h
    cases l with
    | nil => rfl
    | cons c1 l1 =>
      cases l1 with
      | nil => rw [collapseNewlines_single]
      | cons c2 l2 =>
        cases l2 with
        | nil => rw [collapseNewlines_pair]
        | cons c3 rest =>
          simp only [List.length_cons] at hl
          have hfw : ¬(c1 = '\n' ∧ c2 = '\n' ∧ c3 = '\n') := by
            intro ⟨h1, h2, h3⟩
            subst h1; subst h2; subst h3
            rw [ntn_cons3_eq] at h
            simp at h
          rw [collapseNewlines_other _ _ (newlinesMatcher_cons3_none _ _ _ _ hfw)]
          congr 1
          exact ih (c2 :: c3 :: rest) (by simp only [List.length_cons]; omega)
            (ntn_tail _ _ h)

theorem CN_id (l : List Char) (h : noTripleNl l = true) : collapseNewlines l = l :=
  CN_id_aux l.length l le_rfl h

theorem nts_CN_aux : ∀ (len : Nat) (l : List Char), l.length ≤ len →
    noTwoSpaces l = true → noTwoSpaces (collapseNewlines l) = true := by
  intro len
  induction len with
  | zero =>
    intro l hl _
    have : l = [] := List.length_eq_zero.mp (Nat.le_zero.mp hl)
    subst this
    rfl
  | succ len ih =>
    intro l hl h
    cases l with
    | nil => rfl
    | cons c1 l1 =>
      cases l1 with
      | nil => rw [collapseNewlines_single]; exact h
      | cons c2 l2 =>
        cases l2 with
        | nil => rw [collapseNewlines_pair]; exact h
        | cons c3 rest =>
          simp only [List.length_cons] at hl
          by_cases hall : c1 = '\n' ∧ c2 = '\n' ∧ c3 = '\n'
          · obtain ⟨h1, h2, h3⟩ := hall
            subst h1; subst h2; subst h3
            rw [collapseNewlines_nl3]
            have hntsrest : noTwoSpaces rest = true :=
              nts_tail _ _ (nts_tail _ _ (nts_tail _ _ h))
            have hlen : (rest.dropWhile (fun d => d == '\n')).length ≤ len := by
              have hle : (rest.dropWhile (fun d => d == '\n')).length ≤ rest.length :=
                List.Sublist.length_le (List.IsSuffix.sublist (List.dropWhile_suffix _))
              omega
            have hCN := ih _ hlen (nts_dropWhile _ _ hntsrest)
            apply nts_cons_of _ _ (nts_cons_of _ _ hCN (fun hcontra => by
              exact absurd hcontra.1 (by decide)))
            intro hcontra
            exact absurd hcontra.1 (by decide)
          · rw [collapseNewlines_other _ _ (newlinesMatcher_cons3_none _ _ _ _ hall)]
            apply nts_cons_of _ _ (ih (c2 :: c3 :: rest)
              (by simp only [List.length_cons]; omega) (nts_tail _ _ h))
            intro hcontra
            obtain ⟨hx1, hx2⟩ := hcontra
            rw [CN_head?, List.head?_cons] at hx2
            have hc2 : c2 = ' ' := Option.some.inj hx2
            subst hx1
            subst hc2
            rw [nts_cons2_eq] at h
            simp at h

theorem nts_CN (l : List Char) (h : noTwoSpaces l = true) :
    noTwoSpaces (collapseNewlines l) = true :=
  nts_CN_aux l.length l le_rfl h

theorem normalizeWhitespace_idem (l : List Char) :
    normalizeWhitespace (normalizeWhitespace l) = normalizeWhitespace l := by
  unfold normalizeWhitespace
  rw [CS_id _ (nts_CN _ (nts_CS l)), CN_id _ (ntn_CN _)]


/-! UTF-8 round trip: the byte encoding of any character list decodes
back to exactly the same characters. -/

theorem isCont_iff (b : Nat) : isCont b = true ↔ 0x80 ≤ b ∧ b ≤ 0xBF := by
  simp [isCont]

theorem utf8Decode_nil : utf8Decode [] = some [] := rfl

theorem utf8Decode_one (b0 : Nat) (bs : List Nat) (h : b0 < 0x80) :
    utf8Decode (b0 :: bs) = (utf8Decode bs).map (fun cs => Char.ofNat b0 :: cs) := by
  conv_lhs => rw [utf8Decode.eq_def]
  dsimp only
  rw [if_pos h]

theorem utf8Decode_two (b0 b1 : Nat) (bs : List Nat)
    (h0 : ¬ b0 < 0x80) (h : 0xC2 ≤ b0 ∧ b0 ≤ 0xDF ∧ isCont b1 = true) :
    utf8Decode (b0 :: b1 :: bs) =
      (utf8Decode bs).map (fun cs => Char.ofNat ((b0 - 0xC0) * 0x40 + (b1 - 0x80)) :: cs) := by
  conv_lhs => rw [utf8Decode.eq_def]
  dsimp only
  rw [if_neg h0]
  rw [if_pos h]

theorem utf8Decode_three (b0 b1 b2 : Nat) (bs : List Nat)
    (h0 : ¬ b0 < 0x80) (h2 : ¬ (0xC2 ≤ b0 ∧ b0 ≤ 0xDF ∧ isCont b1 = true))
    (h : ((b0 = 0xE0 ∧ 0xA0 ≤ b1 ∧ b1 ≤ 0xBF) ∨
          (0xE1 ≤ b0 ∧ b0 ≤ 0xEC ∧ isCont b1 = true) ∨
          (b0 = 0xED ∧ 0x80 ≤ b1 ∧ b1 ≤ 0x9F) ∨
          (0xEE ≤ b0 ∧ b0 ≤ 0xEF ∧ isCont b1 = true)) ∧ isCont b2 = true) :
    utf8Decode (b0 :: b1 :: b2 :: bs) =
      (utf8Decode bs).map
        (fun cs => Char.ofNat ((b0 - 0xE0) * 0x1000 + (b1 - 0x80) * 0x40 + (b2 - 0x80)) :: cs) := by
  conv_lhs => rw [utf8Decode.eq_def]
  dsimp only
  rw [if_neg h0, if_neg h2, if_pos h]

theorem utf8Decode_four (b0 b1 b2 b3 : Nat) (bs : List Nat)
    (h0 : ¬ b0 < 0x80) (h2 : ¬ (0xC2 ≤ b0 ∧ b0 ≤ 0xDF ∧ isCont b1 = true))
    (h3 : ¬ (((b0 = 0xE0 ∧ 0xA0 ≤ b1 ∧ b1 ≤ 0xBF) ∨
              (0xE1 ≤ b0 ∧ b0 ≤ 0xEC ∧ isCont b1 = true) ∨
              (b0 = 0xED ∧ 0x80 ≤ b1 ∧ b1 ≤ 0x9F) ∨
              (0xEE ≤ b0 ∧ b0 ≤ 0xEF ∧ isCont b1 = true)) ∧ isCont b2 = true))
    (h : ((b0 = 0xF0 ∧ 0x90 ≤ b1 ∧ b1 ≤ 0xBF) ∨
          (0xF1 ≤ b0 ∧ b0 ≤ 0xF3 ∧ isCont b1 = true) ∨
          (b0 = 0xF4 ∧ 0x80 ≤ b1 ∧ b1 ≤ 0x8F)) ∧ isCont b2 = true ∧ isCont b3 = true) :
    utf8Decode (b0 :: b1 :: b2 :: b3 :: bs) =
      (utf8Decode bs).map
        (fun cs => Char.ofNat ((b0 - 0xF0) * 0x40000 + (b1 - 0x80) * 0x1000 +
          (b2 - 0x80) * 0x40 + (b3 - 0x80)) :: cs) := by
  conv_lhs => rw [utf8Decode.eq_def]
  dsimp only
  rw [if_neg h0, if_neg h2, if_neg h3, if_pos h]

theorem utf8Decode_encode_cons (c : Char) (bs : List Nat) :
    utf8Decode (charUtf8 c ++ bs) = (utf8Decode bs).map (fun cs => c :: cs) := by
  have hvalid : c.toNat < 55296 ∨ (57343 < c.toNat ∧ c.toNat < 1114112) := c.valid
  have hofNat := Char.ofNat_toNat c
  unfold charUtf8
  by_cases h1 : c.toNat < 0x80
  · rw [if_pos h1, List.singleton_append, utf8Decode_one _ _ h1, hofNat]
  · rw [if_neg h1]
    by_cases h2 : c.toNat < 0x800
    · rw [if_pos h2]
      rw [show ([0xC0 + c.toNat / 0x40, 0x80 + c.toNat % 0x40] ++ bs) =
            (0xC0 + c.toNat / 0x40) :: (0x80 + c.toNat % 0x40) :: bs from rfl]
      rw [utf8Decode_two _ _ _ (by omega)
            ⟨by omega, by omega, by rw [isCont_iff]; omega⟩]
      have harith : (0xC0 + c.toNat / 0x40 - 0xC0) * 0x40 + (0x80 + c.toNat % 0x40 - 0x80) =
          c.toNat := by omega
      rw [harith, hofNat]
    · rw [if_neg h2]
      by_cases h3 : c.toNat < 0x10000
      · rw [if_pos h3]
        rw [show ([0xE0 + c.toNat / 0x1000, 0x80 + c.toNat / 0x40 % 0x40,
              0x80 + c.toNat % 0x40] ++ bs) =
              (0xE0 + c.toNat / 0x1000) :: (0x80 + c.toNat / 0x40 % 0x40) ::
                (0x80 + c.toNat % 0x40) :: bs from rfl]
        rw [utf8Decode_three _ _ _ _ (by omega)
              (by simp only [isCont_iff]; omega)
              (by simp only [isCont_iff]; omega)]
        have harith : (0xE0 + c.toNat / 0x1000 - 0xE0) * 0x1000 +
            (0x80 + c.toNat / 0x40 % 0x40 - 0x80) * 0x40 +
            (0x80 + c.toNat % 0x40 - 0x80) = c.toNat := by omega
        rw [harith, hofNat]
      · rw [if_neg h3]
        rw [show ([0xF0 + c.toNat / 0x40000, 0x80 + c.toNat / 0x1000 % 0x40,
              0x80 + c.toNat / 0x40 % 0x40, 0x80 + c.toNat % 0x40] ++ bs) =
              (0xF0 + c.toNat / 0x40000) :: (0x80 + c.toNat / 0x1000 % 0x40) ::
                (0x80 + c.toNat / 0x40 % 0x40) :: (0x80 + c.toNat % 0x40) :: bs from rfl]
        rw [utf8Decode_four _ _ _ _ _ (by omega)
              (by simp only [isCont_iff]; omega)
              (by simp only [isCont_iff]; omega)
              (by simp only [isCont_iff]; omega)]
        have harith : (0xF0 + c.toNat / 0x40000 - 0xF0) * 0x40000 +
            (0x80 + c.toNat / 0x1000 % 0x40 - 0x80) * 0x1000 +
            (0x80 + c.toNat / 0x40 % 0x40 - 0x80) * 0x40 +
            (0x80 + c.toNat % 0x40 - 0x80) = c.toNat := by omega
        rw [harith, hofNat]

theorem utf8_roundtrip (l : List Char) : utf8Decode (utf8Encode l) = some l := by
  induction l with
  | nil => rfl
  | cons c rest ih =>
    unfold utf8Encode
    rw [List.map_cons, List.flatten_cons]
    rw [utf8Decode_encode_cons]
    rw [show (List.map charUtf8 rest).flatten = utf8Encode rest from rfl, ih]
    rfl


/-! Claim theorems. -/

/-- C1 counterexample: on a document whose pre-chapter region fills
eight chunks of fifty-or-more surviving characters each, the emitted
page numbers are 1..8 for the pre-chapter region followed by 8 again
for the chapter region, so they are neither unique nor strictly
increasing. -/
theorem claim1_counterexample :
    ¬ ((paginate c1Input).map Page.page_number).Pairwise (· < ·) := by
  rw [paginate_c1_numbers]
  decide

/-- C1 amended: the emitted page numbers are unique and strictly
increasing whenever the pre-chapter region yields at most seven chunks;
with eight or more pre-chapter chunks the hardcoded chapter start page
8 can collide with surviving pre-chapter page numbers. -/
theorem claim1_pairwise (content : List Char)
    (h : (chunkList 1500 (splitContent content).1).length ≤ 7) :
    ((paginate content).map Page.page_number).Pairwise (· < ·) := by
  rw [paginate_eq]
  apply List.Pairwise.sublist (List.Sublist.map Page.page_number (List.filter_sublist _))
  rw [List.map_append, List.pairwise_append]
  refine ⟨?_, ?_, ?_⟩
  · by_cases he : (splitContent content).1.isEmpty
    · rw [if_pos he]; simp
    · rw [if_neg he, mkPages_numbers]
      exact pairwise_lt_map_add 1 _
  · by_cases he : (splitContent content).2.isEmpty
    · rw [if_pos he]; simp
    · rw [if_neg he, mkPages_numbers]
      exact pairwise_lt_map_add 8 _
  · intro x hx y hy
    by_cases he1 : (splitContent content).1.isEmpty
    · rw [if_pos he1] at hx
      simp at hx
    · rw [if_neg he1, mkPages_numbers] at hx
      by_cases he2 : (splitContent content).2.isEmpty
      · rw [if_pos he2] at hy
        simp at hy
      · rw [if_neg he2, mkPages_numbers] at hy
        simp only [List.mem_map, List.mem_range] at hx hy
        obtain ⟨i, hik, hxi⟩ := hx
        obtain ⟨j, hjk, hyj⟩ := hy
        omega

/-- C1 witness: a marker-free sixty-character document has an empty
pre-chapter region, zero pre-chapter chunks, and strictly increasing
page numbers. -/
theorem claim1_witness :
    (chunkList 1500 (splitContent (List.replicate 60 'a')).1).length ≤ 7 ∧
    ((paginate (List.replicate 60 'a')).map Page.page_number).Pairwise (· < ·) := by
  have hsplit : splitContent (List.replicate 60 'a') = ([], List.replicate 60 'a') :=
    splitContent_of_none _ (findMarker_eq_none _ (fun c hc => by
      rw [List.eq_of_mem_replicate hc]; exact ⟨by decide, by decide⟩))
  have hhyp : (chunkList 1500 (splitContent (List.replicate 60 'a')).1).length ≤ 7 := by
    rw [hsplit, chunkList_nil]
    simp
  exact ⟨hhyp, claim1_pairwise _ hhyp⟩

/-- C2 counterexample: a cleaned input of exactly 1500 a characters
contains no chapter marker, so the whole text is treated as chapter
content and its single page is numbered 8, not 1. -/
theorem claim2_counterexample :
    (paginate (List.replicate 1500 'a')).map Page.page_number ≠ [1] := by
  rw [paginate_a1500]
  simp only [List.map_cons, List.map_nil]
  decide

/-- C2 amended: pre-chapter chunks are numbered from 1 but chapter
chunks from the hardcoded start page 8; an input of exactly 1500 a
characters has no marker, falls wholly into the chapter region, and
yields exactly one page whose page_number is 8 and whose text_content
is the 1500 a characters. -/
theorem claim2_page :
    paginate (List.replicate 1500 'a') =
      [{ page_number := 8, text_content := List.replicate 1500 'a' }] :=
  paginate_a1500

/-- C3 counterexample: twenty-five trade-mark-sign characters occupy 75
UTF-8 bytes, so the page passes the source's byte-length filter even
though its trimmed character length is only 25, below 50. -/
theorem claim3_counterexample :
    ¬ (∀ p ∈ paginate (List.replicate 25 '™'), 50 ≤ p.text_content.length) := by
  intro h
  have hmem : ({ page_number := 8, text_content := List.replicate 25 '™' } : Page) ∈
      paginate (List.replicate 25 '™') := by
    rw [paginate_tm25]
    exact List.mem_singleton.mpr rfl
  have := h _ hmem
  simp only [List.length_replicate] at this
  omega

/-- C3 amended: every emitted page has a trimmed text_content whose
length measured in UTF-8 bytes, as Rust str::len measures it, is at
least 50; the filter does not bound the character count. -/
theorem claim3_bytes (content : List Char) (p : Page) (hp : p ∈ paginate content) :
    50 ≤ utf8Len p.text_content := by
  rw [paginate_eq] at hp
  have h2 := List.mem_filter.mp hp
  simpa using h2.2

/-- C3 witness: the single page of the 1500-character document passes
the byte-length bound. -/
theorem claim3_witness :
    50 ≤ utf8Len (Page.mk 8 (List.replicate 1500 'a')).text_content :=
  claim3_bytes (List.replicate 1500 'a') _ (by
    rw [paginate_a1500]
    exact List.mem_singleton.mpr rfl)

/-- C4 counterexample: for the cleaned input Down the Rabbit-Hole, the
matched marker is removed and CHAPTER I is put in its place, so the
concatenation of the unfiltered chunk texts is CHAPTER I, not the
input. -/
theorem claim4_counterexample :
    (unfilteredTexts downMark 1500).flatten ≠ downMark := by
  rw [unfilteredTexts_flatten,
      splitContent_of_some _ _ _ _
        (by decide : findMarker downMark = some ([], downMark, []))]
  decide

/-- C4 amended: for every positive chunk size, concatenating the
unfiltered page texts reconstructs the cleaned input exactly whenever
the first marker match is not the literal Down the Rabbit-Hole (that
is, no marker occurs, or the matched marker is CHAPTER I, which the
split re-prepends verbatim). -/
theorem claim4_flatten (content : List Char) (n : Nat) (hn : 0 < n)
    (h : ∀ pre post, findMarker content ≠ some (pre, downMark, post)) :
    (unfilteredTexts content n).flatten = content := by
  rw [unfilteredTexts_flatten]
  cases hm : findMarker content with
  | none =>
    rw [splitContent_of_none content hm]
    simp
  | some x =>
    obtain ⟨pre, m, post⟩ := x
    rw [splitContent_of_some content pre m post hm]
    obtain ⟨heq, hor⟩ := findMarker_sound content pre m post hm
    cases hor with
    | inl hcI =>
      subst hcI
      rw [heq, List.append_assoc]
    | inr hdown =>
      subst hdown
      exact absurd hm (h pre post)

/-- C4 witness: a three-character marker-free input is reconstructed by
the concatenation of its unfiltered chunk texts. -/
theorem claim4_witness :
    0 < 1500 ∧ (∀ pre post, findMarker ['a', 'b', 'c'] ≠ some (pre, downMark, post)) ∧
    (unfilteredTexts ['a', 'b', 'c'] 1500).flatten = ['a', 'b', 'c'] := by
  have hfm : findMarker ['a', 'b', 'c'] = none := by decide
  have hne : ∀ pre post, findMarker ['a', 'b', 'c'] ≠ some (pre, downMark, post) := by
    intro pre post hc
    rw [hfm] at hc
    exact Option.noConfusion hc
  exact ⟨by decide, hne, claim4_flatten _ _ (by decide) hne⟩

/-- C5 counterexample: the cleaner maps the Example 3 input to the
string with a leading and a trailing space, not to the bare string
Hello World. -/
theorem claim5_counterexample : clean_pdf_controls c5Input ≠ "Hello World".data := by
  decide

/-- C5 amended: the cleaner output for the Example 3 input is exactly
one space, Hello World, one space: each artifact is replaced by a
space and space runs are collapsed to a single space, but the
surrounding spaces are only removed later by the pagination trim. -/
theorem claim5_cleaned : clean_pdf_controls c5Input = " Hello World ".data := by
  decide

/-- C6: the whitespace-normalization step, collapsing space runs to one
space and then runs of three or more newlines to exactly two, is
idempotent. -/
theorem claim6_idempotent (l : List Char) :
    normalizeWhitespace (normalizeWhitespace l) = normalizeWhitespace l :=
  normalizeWhitespace_idem l

/-- C7: chunking operates on whole Unicode scalar values, so the UTF-8
encoding of every emitted page text decodes, under a strict decoder
that rejects malformed and truncated sequences, back to exactly that
text: no emitted page contains a malformed or truncated character. -/
theorem claim7_unicode (content : List Char) (p : Page) (hp : p ∈ paginate content) :
    utf8Decode (utf8Encode p.text_content) = some p.text_content :=
  utf8_roundtrip p.text_content

/-- C7 witness: the page produced from twenty-five three-byte
characters round-trips through UTF-8. -/
theorem claim7_witness :
    utf8Decode (utf8Encode (Page.mk 8 (List.replicate 25 '™')).text_content) =
      some (Page.mk 8 (List.replicate 25 '™')).text_content :=
  claim7_unicode (List.replicate 25 '™') _ (by
    rw [paginate_tm25]
    exact List.mem_singleton.mpr rfl)

/-- C8: pagination is total (it is a total function of its input, and
every input has a well-defined page list), and the empty cleaned input
produces the empty page sequence. -/
theorem claim8_empty :
    paginate [] = [] ∧ ∀ content : List Char, ∃ pages : List Page, paginate content = pages :=
  ⟨rfl, fun content => ⟨paginate content, rfl⟩⟩

/-- C9: extract_pdf fails exactly when the external extraction
collaborator fails, attaching the collaborator's message after the
prefix Extraction failed; on success the pure clean-and-paginate
pipeline always returns a result. -/
theorem claim9_errors (r : Except String (List Char × String)) :
    (∃ e, r = Except.error e ∧
      extract_pdf r = Except.error ("Extraction failed: " ++ e)) ∨
    (∃ raw meta, r = Except.ok (raw, meta) ∧
      extract_pdf r = Except.ok (paginate (clean_pdf_controls raw), meta)) := by
  cases r with
  | error e => exact Or.inl ⟨e, rfl, rfl⟩
  | ok x =>
    obtain ⟨raw, meta⟩ := x
    exact Or.inr ⟨raw, meta, rfl, rfl⟩

/-- C10: when a chapter marker is found, the content splits as pre,
marker, post; the chapter region becomes CHAPTER I followed by post,
with the matched marker removed; and when the matched marker is Down
the Rabbit-Hole the paginated text no longer concatenates back to the
cleaned input. -/
theorem claim10_marker (content pre m post : List Char)
    (h : findMarker content = some (pre, m, post)) :
    content = pre ++ m ++ post ∧
    splitContent content = (pre, chapterIMark ++ post) ∧
    (m = downMark → (unfilteredTexts content 1500).flatten ≠ content) := by
  obtain ⟨heq, hor⟩ := findMarker_sound content pre m post h
  refine ⟨heq, splitContent_of_some content pre m post h, ?_⟩
  intro hdown
  subst hdown
  rw [unfilteredTexts_flatten, splitContent_of_some content pre downMark post h]
  intro hbad
  rw [heq] at hbad
  have hlen := congrArg List.length hbad
  simp only [List.length_append] at hlen
  have h9 : chapterIMark.length = 9 := rfl
  have h20 : downMark.length = 20 := rfl
  rw [h9, h20] at hlen
  omega

/-- C10 witness: the input consisting of the bare Down the Rabbit-Hole
marker splits with empty pre and post, and its unfiltered chunk texts
concatenate to CHAPTER I rather than the input. -/
theorem claim10_witness :
    downMark = [] ++ downMark ++ [] ∧
    splitContent downMark = ([], chapterIMark ++ []) ∧
    (downMark = downMark → (unfilteredTexts downMark 1500).flatten ≠ downMark) :=
  claim10_marker downMark [] downMark [] (by decide)

end Storia
